import Mathlib

/-!
Verification of the cache population and cross-referenced lookup engine of
the better-hrep-api repository, shallowly embedded in Lean 4.

The embedding covers:
* the congress identifier normalizer (`src/lib/congress-mapper.ts`);
* the paginated bill-search indexing loop with its seen-set deduplication,
  shared by the authors, co-authors and committees indexing routes;
* the replace-by-partition merge of person-centric document lists;
* the chunk cursor for per-congress per-person indexing;
* the atomic batching of primary records with their secondary index pointers
  in the membership and information indexing routes;
* the shared-secret authorization guard of the indexing routes;
* the retry-with-backoff controller and the chunked seed script around it;
* the `/info/people` membership-mapping endpoint.

Asynchronous effects are made explicit: upstream fetches become function
parameters, the key-value store becomes explicit state or a write trace,
and the unbounded `while (true)` pagination loops take a fuel parameter
(the loop genuinely diverges if the upstream returns fresh keys forever),
with results stated for every run that terminates.
-/

namespace BetterHrep

/-! ## Congress identifier normalizer (src/lib/congress-mapper.ts)

`CONGRESS_ID_MAP` is the static exception table `{103: 20}`.
`mapCongressId` reads it, `mapToApiId` does the reverse lookup over its
entries, both falling through to the identity. -/

/-- `mapCongressId(apiId)`: `CONGRESS_ID_MAP[apiId] ?? apiId` with the
single table entry `103 ↦ 20`. -/
def mapCongressId (apiId : Int) : Int :=
  if apiId = 103 then 20 else apiId

/-- `mapToApiId(congressNumber)`: reverse lookup over the entries of
`CONGRESS_ID_MAP`, returning the unique key whose value matches, else the
input unchanged. -/
def mapToApiId (congressNumber : Int) : Int :=
  if congressNumber = 20 then 103 else congressNumber

/-- C4: Normalizer round-trip.  For the one exception-table entry
(upstream 103 ↦ canonical 20), `mapToApiId (mapCongressId 103) = 103`;
every integer appearing in the table neither as key nor as value passes
through both directions unchanged; and `mapCongressId (mapToApiId n) = n`
for every canonical congress number `n` (every integer other than the
remapped upstream id 103, which is not a canonical number). -/
theorem congress_mapper_round_trip :
    mapToApiId (mapCongressId 103) = 103 ∧
    (∀ n : Int, n ≠ 103 → n ≠ 20 → mapCongressId n = n ∧ mapToApiId n = n) ∧
    (∀ n : Int, n ≠ 103 → mapCongressId (mapToApiId n) = n) := by
  refine ⟨by decide, ?_, ?_⟩
  · intro n h103 h20
    constructor
    · simp [mapCongressId, h103]
    · simp [mapToApiId, h20]
  · intro n h103
    by_cases h20 : n = 20
    · subst h20; decide
    · simp [mapToApiId, h20, mapCongressId, h103]

/-- Witness for C4 at concrete inputs: the round trip at 103, pass-through
at 19, and the canonical round trip at 20. -/
theorem congress_mapper_round_trip_witness :
    mapToApiId (mapCongressId 103) = 103 ∧
    (mapCongressId 19 = 19 ∧ mapToApiId 19 = 19) ∧
    mapCongressId (mapToApiId 20) = 20 :=
  ⟨congress_mapper_round_trip.1,
   congress_mapper_round_trip.2.1 19 (by decide) (by decide),
   congress_mapper_round_trip.2.2 20 (by decide)⟩

/-! ## The paginated bill-search indexing loop

`indexAuthorsRoute`, `indexCoAuthorsRoute` (both branches) and
`indexCommitteesRoute` share one pagination pattern: starting at page 0,
call `fetchBillsSearch`; break when the response is unsuccessful, has no
rows, or every row's `bill_no` is already in `seenBills`; otherwise write
one inverted relationship entry per unseen row inside one atomic batch,
record the row in `seenBills` / `newDocuments`, bump `indexed`, and move to
the next page.

The upstream is modelled by `pages : Nat → Option (List String)`:
`pages k` is the list of `bill_no` fields of the rows of page `k`, `none`
when the fetch is unsuccessful or has no `rows` field. -/

/-- An entry of a person-centric document list:
`{ congress, documentKey }`. -/
structure DocRef where
  congress : Int
  documentKey : String
deriving DecidableEq, Repr

/-- One inverted relationship write
`["congresses", congress, documentKey, role, entityId] ↦ true`. -/
structure InvertedWrite where
  congress : Int
  documentKey : String
  role : String
  entityId : String
deriving DecidableEq, Repr

/-- The mutable state of one pagination loop: `seenBills` (in insertion
order), the `indexed` counter, the accumulated `newDocuments`, the inverted
writes committed so far, and the number of `fetchBillsSearch` calls made. -/
structure LoopState where
  seenBills : List String
  indexed : Nat
  newDocuments : List DocRef
  invertedWrites : List InvertedWrite
  pagesFetched : Nat
deriving DecidableEq, Repr

def LoopState.init : LoopState := ⟨[], 0, [], [], 0⟩

/-- The body of `for (const bill of response.data.rows)`: a row whose
`bill_no` is already in `seenBills` is skipped, otherwise one inverted
entry is queued, the counters grow and the key is recorded. -/
def processRow (congress : Int) (role entityId : String)
    (st : LoopState) (billNo : String) : LoopState :=
  if billNo ∈ st.seenBills then st
  else
    { st with
      seenBills := st.seenBills ++ [billNo]
      indexed := st.indexed + 1
      newDocuments := st.newDocuments ++ [⟨congress, billNo⟩]
      invertedWrites := st.invertedWrites ++ [⟨congress, billNo, role, entityId⟩] }

/-- One page's row loop (the contents of one atomic batch). -/
def processPage (congress : Int) (role entityId : String)
    (st : LoopState) (rows : List String) : LoopState :=
  rows.foldl (processRow congress role entityId) st

/-- `newBillsCount`: `response.data.rows.filter(b => !seenBills.has(b)).length`. -/
def newBillsCount (st : LoopState) (rows : List String) : Nat :=
  (rows.filter (fun b => decide (b ∉ st.seenBills))).length

/-- The `while (true)` pagination loop, with explicit fuel; `none` means
the fuel ran out before the loop broke (the loop itself has no bound). -/
def runSearchLoop (congress : Int) (role entityId : String)
    (pages : Nat → Option (List String)) :
    Nat → Nat → LoopState → Option LoopState
  | 0, _, _ => none
  | fuel + 1, page, st =>
    let st := { st with pagesFetched := st.pagesFetched + 1 }
    match pages page with
    | none => some st
    | some rows =>
      if rows = [] then some st
      else if newBillsCount st rows = 0 then some st
      else runSearchLoop congress role entityId pages fuel (page + 1)
        (processPage congress role entityId st rows)

/-- The loop invariant tying the counters and write lists to `seenBills`:
no key is recorded twice, `indexed` counts the distinct keys, and both
`newDocuments` and the inverted writes are the image of `seenBills`. -/
def LoopInv (congress : Int) (role entityId : String) (st : LoopState) : Prop :=
  st.seenBills.Nodup ∧
  st.indexed = st.seenBills.length ∧
  st.newDocuments = st.seenBills.map (fun b => ⟨congress, b⟩) ∧
  st.invertedWrites = st.seenBills.map (fun b => ⟨congress, b, role, entityId⟩)

theorem loopInv_init (congress : Int) (role entityId : String) :
    LoopInv congress role entityId .init := by
  refine ⟨List.nodup_nil, rfl, rfl, rfl⟩

theorem processRow_inv {congress : Int} {role entityId : String}
    {st : LoopState} (h : LoopInv congress role entityId st) (b : String) :
    LoopInv congress role entityId (processRow congress role entityId st b) := by
  obtain ⟨h1, h2, h3, h4⟩ := h
  unfold processRow
  by_cases hb : b ∈ st.seenBills
  · simp [hb]; exact ⟨h1, h2, h3, h4⟩
  · simp only [hb, if_false, if_neg hb]
    refine ⟨?_, ?_, ?_, ?_⟩
    · simpa [List.nodup_append] using ⟨h1, hb⟩
    · simp [h2]
    · simp [h3]
    · simp [h4]

theorem processRow_seen_mem {congress : Int} {role entityId : String}
    (st : LoopState) (b x : String) :
    x ∈ (processRow congress role entityId st b).seenBills ↔
      x ∈ st.seenBills ∨ x = b := by
  unfold processRow
  by_cases hb : b ∈ st.seenBills
  · simp only [hb, if_pos hb]
    constructor
    · exact fun h => Or.inl h
    · rintro (h | rfl)
      · exact h
      · exact hb
  · simp [hb]

theorem processPage_inv {congress : Int} {role entityId : String}
    {st : LoopState} (h : LoopInv congress role entityId st) (rows : List String) :
    LoopInv congress role entityId (processPage congress role entityId st rows) := by
  induction rows generalizing st with
  | nil => exact h
  | cons r rs ih => exact ih (processRow_inv h r)

theorem processPage_seen_mem {congress : Int} {role entityId : String}
    (st : LoopState) (rows : List String) (x : String) :
    x ∈ (processPage congress role entityId st rows).seenBills ↔
      x ∈ st.seenBills ∨ x ∈ rows := by
  induction rows generalizing st with
  | nil => simp [processPage]
  | cons r rs ih =>
    show x ∈ (processPage congress role entityId
        (processRow congress role entityId st r) rs).seenBills ↔ _
    rw [ih, processRow_seen_mem]
    constructor
    · rintro ((h | rfl) | h)
      · exact Or.inl h
      · exact Or.inr (List.mem_cons_self _ _)
      · exact Or.inr (List.mem_cons_of_mem _ h)
    · rintro (h | h)
      · exact Or.inl (Or.inl h)
      · rcases List.mem_cons.mp h with rfl | h
        · exact Or.inl (Or.inr rfl)
        · exact Or.inr h

theorem runSearchLoop_inv {congress : Int} {role entityId : String}
    {pages : Nat → Option (List String)} :
    ∀ {fuel page : Nat} {st st' : LoopState},
      LoopInv congress role entityId st →
      runSearchLoop congress role entityId pages fuel page st = some st' →
      LoopInv congress role entityId st' := by
  intro fuel
  induction fuel with
  | zero => intro page st st' _ h; simp [runSearchLoop] at h
  | succ fuel ih =>
    intro page st st' hinv h
    have hinv' : LoopInv congress role entityId
        { st with pagesFetched := st.pagesFetched + 1 } := hinv
    rw [runSearchLoop] at h
    split at h
    · injection h with h; exact h ▸ hinv'
    · split at h
      · injection h with h; exact h ▸ hinv'
      · split at h
        · injection h with h; exact h ▸ hinv'
        · exact ih (processPage_inv hinv' _) h

/-- C2: Dedup-on-paginate.  (1) The pagination loop halts at every page
whose fetch is unsuccessful, whose row list is empty, or whose rows
contain zero keys not already seen, changing nothing but the fetch
counter; (2) it only advances past a page after recording at least one
new key; (3) every completed run starting from the initial state has
pairwise-distinct seen keys, an `indexed` count equal to the number of
distinct keys, and exactly one inverted relationship write per distinct
key (so repeated pages inflate nothing). -/
theorem dedup_on_paginate (congress : Int) (role entityId : String)
    (pages : Nat → Option (List String)) :
    (∀ fuel page st,
      (pages page = none ∨ pages page = some [] ∨
        (∃ rows, pages page = some rows ∧ newBillsCount st rows = 0)) →
      runSearchLoop congress role entityId pages (fuel + 1) page st =
        some { st with pagesFetched := st.pagesFetched + 1 }) ∧
    (∀ fuel page st rows, pages page = some rows → rows ≠ [] →
      newBillsCount st rows ≠ 0 →
      runSearchLoop congress role entityId pages (fuel + 1) page st =
        runSearchLoop congress role entityId pages fuel (page + 1)
          (processPage congress role entityId
            { st with pagesFetched := st.pagesFetched + 1 } rows) ∧
      newBillsCount st rows ≠ 0) ∧
    (∀ fuel st',
      runSearchLoop congress role entityId pages fuel 0 .init = some st' →
      st'.seenBills.Nodup ∧
      st'.indexed = st'.seenBills.length ∧
      st'.invertedWrites =
        st'.seenBills.map (fun b => ⟨congress, b, role, entityId⟩) ∧
      st'.invertedWrites.Nodup) := by
  refine ⟨?_, ?_, ?_⟩
  · intro fuel page st h
    rw [runSearchLoop]
    rcases h with h | h | ⟨rows, h, hz⟩
    · rw [h]
    · rw [h]; simp
    · rw [h]
      have hz' : newBillsCount
          { st with pagesFetched := st.pagesFetched + 1 } rows = 0 := hz
      by_cases hrows : rows = []
      · simp [hrows]
      · simp [hrows, hz']
  · intro fuel page st rows h hrows hnz
    refine ⟨?_, hnz⟩
    rw [runSearchLoop, h]
    have hnz' : ¬ newBillsCount
        { st with pagesFetched := st.pagesFetched + 1 } rows = 0 := hnz
    simp [hrows, hnz']
  · intro fuel st' hrun
    obtain ⟨h1, h2, _, h4⟩ :=
      runSearchLoop_inv (loopInv_init congress role entityId) hrun
    refine ⟨h1, h2, h4, ?_⟩
    rw [h4]
    exact h1.map (fun a b hab => by
      simpa using congrArg InvertedWrite.documentKey hab)

/-- Witness for C2: an upstream whose page 1 repeats page 0's keys
(`["A", "B"]` twice, with a fresh page 2 behind it that is never
reached).  The completed run stops after fetching pages 0 and 1, sees the
two distinct keys once each, reports `indexed = 2` and writes exactly one
inverted entry per key. -/
theorem dedup_on_paginate_witness :
    (runSearchLoop 20 "authors" "P1"
        (fun k => if k = 2 then some ["C"]
                  else some ["A", "B"]) 10 0 .init =
      some ⟨["A", "B"], 2, [⟨20, "A"⟩, ⟨20, "B"⟩],
        [⟨20, "A", "authors", "P1"⟩, ⟨20, "B", "authors", "P1"⟩], 2⟩) ∧
    (["A", "B"] : List String).Nodup ∧
    (2 : Nat) = (["A", "B"] : List String).length ∧
    ([⟨20, "A", "authors", "P1"⟩, ⟨20, "B", "authors", "P1"⟩] :
        List InvertedWrite) =
      (["A", "B"] : List String).map (fun b => ⟨20, b, "authors", "P1"⟩) ∧
    ([⟨20, "A", "authors", "P1"⟩, ⟨20, "B", "authors", "P1"⟩] :
        List InvertedWrite).Nodup := by
  have hrun : runSearchLoop 20 "authors" "P1"
      (fun k => if k = 2 then some ["C"]
                else some ["A", "B"]) 10 0 .init =
      some ⟨["A", "B"], 2, [⟨20, "A"⟩, ⟨20, "B"⟩],
        [⟨20, "A", "authors", "P1"⟩, ⟨20, "B", "authors", "P1"⟩], 2⟩ := by
    decide
  have h := (dedup_on_paginate 20 "authors" "P1"
      (fun k => if k = 2 then some ["C"] else some ["A", "B"])).2.2 10 _ hrun
  exact ⟨hrun, h.1, h.2.1, h.2.2.1, h.2.2.2⟩

/-! ## Person-centric replace-by-partition merge

After the pagination loop, `indexAuthorsRoute` and `indexCoAuthorsRoute`
(both branches, `authoredDocuments` resp. `coAuthoredDocuments`) read the
existing person-centric list, drop the entries of the congress being
indexed, append the newly found documents and write the result back. -/

/-- `existingDocs.filter(doc => doc.congress !== congress)` followed by
`[...filteredDocs, ...newDocuments]`. -/
def mergeByCongress (existingDocs : List DocRef) (congress : Int)
    (newDocuments : List DocRef) : List DocRef :=
  existingDocs.filter (fun doc => decide (doc.congress ≠ congress)) ++ newDocuments

/-- The per-person indexing operation for one congress and one role
(`"authors"`/`"coAuthors"`): run the pagination loop from the initial
state, then merge the person-centric list.  Returns the final loop state
and the value written back to
`["people", "byPersonId", personId, role+"Documents"]`. -/
def indexPersonDocuments (congress : Int) (role personId : String)
    (pages : Nat → Option (List String)) (existingDocs : List DocRef)
    (fuel : Nat) : Option (LoopState × List DocRef) :=
  match runSearchLoop congress role personId pages fuel 0 .init with
  | none => none
  | some st => some (st, mergeByCongress existingDocs congress st.newDocuments)

theorem filter_ne_filter_eq (l : List DocRef) (c c' : Int) (h : c' ≠ c) :
    (l.filter (fun d => decide (d.congress ≠ c))).filter
        (fun d => decide (d.congress = c')) =
      l.filter (fun d => decide (d.congress = c')) := by
  rw [List.filter_filter]
  apply List.filter_congr
  intro d _
  by_cases hc' : d.congress = c'
  · have hc : d.congress ≠ c := by rw [hc']; exact h
    simp [hc', hc, h]
  · simp [hc']

theorem filter_ne_filter_self (l : List DocRef) (c : Int) :
    (l.filter (fun d => decide (d.congress ≠ c))).filter
        (fun d => decide (d.congress = c)) = [] := by
  induction l with
  | nil => rfl
  | cons d ds ih =>
    by_cases hc : d.congress = c
    · simp [List.filter_cons, hc, ih]
    · simp [List.filter_cons, hc, ih]

theorem map_mk_filter_eq (seen : List String) (c c' : Int) :
    (seen.map (fun b => (⟨c, b⟩ : DocRef))).filter
        (fun d => decide (d.congress = c')) =
      if c = c' then seen.map (fun b => (⟨c, b⟩ : DocRef)) else [] := by
  induction seen with
  | nil => simp
  | cons b bs ih =>
    by_cases hc : c = c'
    · simp [List.filter_cons, hc, ih]
    · simp [List.filter_cons, hc, ih]

/-- C1: Replace-by-partition merge.  For every terminating run of the
per-congress per-person document indexing operation (authored or
co-authored, via the `role` parameter), the list written back to the
person-centric cache entry is exactly the previously cached entries whose
congress differs from the indexed congress, followed by the documents
newly found for that congress; for every other congress the cached
entries are unchanged (same entries, same order), and every entry of the
final list for the indexed congress comes from the new result, so all
previously cached entries of that congress are gone. -/
theorem replace_by_partition (congress : Int) (role personId : String)
    (pages : Nat → Option (List String)) (existingDocs : List DocRef)
    (fuel : Nat) (st : LoopState) (cached : List DocRef)
    (h : indexPersonDocuments congress role personId pages existingDocs fuel =
      some (st, cached)) :
    cached = existingDocs.filter (fun d => decide (d.congress ≠ congress)) ++
      st.newDocuments ∧
    (∀ c', c' ≠ congress →
      cached.filter (fun d => decide (d.congress = c')) =
        existingDocs.filter (fun d => decide (d.congress = c'))) ∧
    cached.filter (fun d => decide (d.congress = congress)) = st.newDocuments ∧
    (∀ d ∈ cached, d.congress = congress → d ∈ st.newDocuments) := by
  unfold indexPersonDocuments at h
  rcases hrun : runSearchLoop congress role personId pages fuel 0 .init with
    _ | st0
  · rw [hrun] at h; exact absurd h (by simp)
  · rw [hrun] at h
    simp only [Option.some.injEq, Prod.mk.injEq] at h
    obtain ⟨h1, h2⟩ := h
    subst h1
    obtain ⟨-, -, hnew, -⟩ :=
      runSearchLoop_inv (loopInv_init congress role personId) hrun
    have hcached := h2.symm
    simp only [mergeByCongress] at hcached
    refine ⟨hcached, ?_, ?_, ?_⟩
    · intro c' hc'
      rw [hcached, List.filter_append, filter_ne_filter_eq _ _ _ hc', hnew,
        map_mk_filter_eq, if_neg (fun hh => hc' hh.symm), List.append_nil]
    · rw [hcached, List.filter_append, filter_ne_filter_self, hnew,
        map_mk_filter_eq, if_pos rfl, List.nil_append]
    · intro d hd hdc
      have : d ∈ cached.filter (fun d => decide (d.congress = congress)) :=
        List.mem_filter.mpr ⟨hd, by simp [hdc]⟩
      rw [hcached, List.filter_append, filter_ne_filter_self, hnew,
        map_mk_filter_eq, if_pos rfl, List.nil_append, ← hnew] at this
      exact this

/-- Witness for C1, the spec's own example: cached list
`[{19, "A"}, {20, "B"}]`, re-indexing congress 20 finds `["C"]`; the
final cached list is `[{19, "A"}, {20, "C"}]`, congress 19 untouched,
congress 20's old entry gone. -/
theorem replace_by_partition_witness :
    ([⟨19, "A"⟩, ⟨20, "C"⟩] : List DocRef) =
      ([⟨19, "A"⟩, ⟨20, "B"⟩] : List DocRef).filter
          (fun d => decide (d.congress ≠ 20)) ++ [⟨20, "C"⟩] ∧
    ([⟨19, "A"⟩, ⟨20, "C"⟩] : List DocRef).filter
        (fun d => decide (d.congress = 19)) =
      ([⟨19, "A"⟩, ⟨20, "B"⟩] : List DocRef).filter
        (fun d => decide (d.congress = 19)) ∧
    ([⟨19, "A"⟩, ⟨20, "C"⟩] : List DocRef).filter
        (fun d => decide (d.congress = 20)) = [⟨20, "C"⟩] := by
  have h := replace_by_partition 20 "authors" "P1"
    (fun k => if k = 0 then some ["C"] else some [])
    [⟨19, "A"⟩, ⟨20, "B"⟩] 10
    ⟨["C"], 1, [⟨20, "C"⟩], [⟨20, "C", "authors", "P1"⟩], 2⟩
    [⟨19, "A"⟩, ⟨20, "C"⟩] (by decide)
  exact ⟨h.1, h.2.1 19 (by decide), h.2.2.1⟩

/-! ## The authors / co-authors indexing routes

`indexAuthorsRoute` and `indexCoAuthorsRoute` differ only in the role
string and the person-centric cache key; both are modelled by
`indexDocumentsRoute role`.  The handler checks the shared secret, opens
the KV connection, then either processes the single `personId` or slices
the congress-filtered DDL population `[startIndex, startIndex+chunkSize)`
(defaults 0 and 10) and processes that chunk.  Neither handler ever calls
`kv.close()`, which the effects trace records. -/

/-- A row of the house-members DDL reference (`fetchHouseMembersDDL`). -/
structure MemberDDL where
  author_id : String
  fullname : String
  membership : List Int
deriving DecidableEq, Repr

/-- Responses of the authors/co-authors indexing handlers: 401 for a bad
key, 500 when the DDL population fetch fails, else the 200 body
`{indexed, peopleProcessed, totalPeople, nextStartIndex?}`. -/
inductive IndexDocsResp where
  | unauthorized
  | ddlError
  | ok (indexed : Nat) (peopleProcessed : Nat) (totalPeople : Nat)
      (nextStartIndex : Option Nat)
deriving DecidableEq, Repr

/-- The externally visible effects of one handler run: whether the KV
connection was opened and closed, the inverted relationship writes, and
the person-centric list writes (per person id). -/
structure RouteEffects where
  kvOpened : Bool
  kvClosed : Bool
  invertedWrites : List InvertedWrite
  personDocWrites : List (String × List DocRef)
deriving DecidableEq, Repr

/-- No effects at all (nothing opened, nothing fetched, nothing written). -/
def RouteEffects.none : RouteEffects := ⟨false, false, [], []⟩

/-- The `for (const member of chunk)` loop: each member runs the
pagination loop and the person-centric merge; the route-level `indexed`
counter accumulates each member's count. -/
def processChunk (congress : Int) (role : String)
    (pages : String → Nat → Option (List String))
    (existingDocs : String → List DocRef) (fuel : Nat) :
    List MemberDDL →
      Option (Nat × List InvertedWrite × List (String × List DocRef))
  | [] => some (0, [], [])
  | m :: rest =>
    match indexPersonDocuments congress role m.author_id (pages m.author_id)
        (existingDocs m.author_id) fuel with
    | none => none
    | some (st, cached) =>
      match processChunk congress role pages existingDocs fuel rest with
      | none => none
      | some (n, iw, pw) =>
        some (st.indexed + n, st.invertedWrites ++ iw,
          (m.author_id, cached) :: pw)

/-- The whole authors/co-authors handler after request validation.
`ddl = none` models a failed `fetchHouseMembersDDL`; the overall `none`
means some pagination loop ran out of fuel (the code would still be
looping). -/
def indexDocumentsRoute (role key secret : String) (congress : Int)
    (personId : Option String) (startIndex chunkSize : Option Nat)
    (ddl : Option (List MemberDDL))
    (pages : String → Nat → Option (List String))
    (existingDocs : String → List DocRef) (fuel : Nat) :
    Option (IndexDocsResp × RouteEffects) :=
  if key ≠ secret then some (.unauthorized, .none)
  else
    match personId with
    | some pid =>
      match indexPersonDocuments congress role pid (pages pid)
          (existingDocs pid) fuel with
      | none => none
      | some (st, cached) =>
        some (.ok st.indexed 1 1 none,
          ⟨true, false, st.invertedWrites, [(pid, cached)]⟩)
    | none =>
      match ddl with
      | none => some (.ddlError, ⟨true, false, [], []⟩)
      | some people =>
        let start := startIndex.getD 0
        let size := chunkSize.getD 10
        let filteredPeople := people.filter
          (fun p => decide (congress ∈ p.membership.map mapCongressId))
        let totalPeople := filteredPeople.length
        let endIndex := min (start + size) totalPeople
        let chunk := (filteredPeople.drop start).take (endIndex - start)
        match processChunk congress role pages existingDocs fuel chunk with
        | none => none
        | some (n, iw, pw) =>
          some (.ok n chunk.length totalPeople
              (if endIndex < totalPeople then some endIndex else none),
            ⟨true, false, iw, pw⟩)

theorem processChunk_ids {congress : Int} {role : String}
    {pages : String → Nat → Option (List String)}
    {existingDocs : String → List DocRef} {fuel : Nat} :
    ∀ {chunk : List MemberDDL} {n : Nat} {iw : List InvertedWrite}
      {pw : List (String × List DocRef)},
      processChunk congress role pages existingDocs fuel chunk =
        some (n, iw, pw) →
      pw.map Prod.fst = chunk.map MemberDDL.author_id := by
  intro chunk
  induction chunk with
  | nil =>
    intro n iw pw h
    simp only [processChunk, Option.some.injEq, Prod.mk.injEq] at h
    rw [← h.2.2]; rfl
  | cons m rest ih =>
    intro n iw pw h
    rw [processChunk] at h
    split at h
    · exact absurd h (by simp)
    · split at h
      · exact absurd h (by simp)
      · simp only [Option.some.injEq, Prod.mk.injEq] at h
        obtain ⟨-, -, h3⟩ := h
        rw [← h3]
        simpa using ih (by assumption)

/-- The processed slice, the remainder that a follow-up call starting at
`min (s + k) l.length` would see, and the pending population starting at
`s` fit together: slicing loses and duplicates nothing. -/
theorem slice_append_drop {α : Type} (l : List α) (s k : Nat) :
    (l.drop s).take (min (s + k) l.length - s) ++
        l.drop (min (s + k) l.length) = l.drop s := by
  by_cases hs : s ≤ l.length
  · have hse : s ≤ min (s + k) l.length := le_min (Nat.le_add_right s k) hs
    have hd : l.drop (min (s + k) l.length) =
        (l.drop s).drop (min (s + k) l.length - s) := by
      rw [List.drop_drop]
      congr 1
      omega
    rw [hd, List.take_append_drop]
  · push_neg at hs
    have h1 : min (s + k) l.length = l.length :=
      min_eq_right (le_trans (Nat.le_of_lt hs) (Nat.le_add_right s k))
    have h2 : l.drop s = [] := List.drop_eq_nil_of_le (Nat.le_of_lt hs)
    have h3 : l.drop l.length = [] := List.drop_eq_nil_of_le (Nat.le_refl _)
    rw [h1, h2, h3]
    simp

/-- C7: Resumable chunk cursor.  With no `personId`, a terminating run of
the authors/co-authors handler processes exactly the slice
`[startIndex, min (startIndex + chunkSize) totalPeople)` of the
congress-filtered population (defaults 0 and 10): the person-centric
writes are one per member of that slice in order; the response carries
the slice's length, `totalPeople`, and `nextStartIndex` equal to the end
of the slice exactly when units remain (omitted otherwise); the slice
followed by the population from `nextStartIndex` on is the whole pending
population, and when `nextStartIndex` is omitted the slice exhausts it.
With a `personId`, exactly that one unit is processed. -/
theorem resumable_chunk_cursor (role key : String) (congress : Int)
    (startIndex chunkSize : Option Nat) (people : List MemberDDL)
    (pages : String → Nat → Option (List String))
    (existingDocs : String → List DocRef) (fuel : Nat) :
    (∀ resp eff,
      indexDocumentsRoute role key key congress none startIndex chunkSize
          (some people) pages existingDocs fuel = some (resp, eff) →
      (let start := startIndex.getD 0
       let size := chunkSize.getD 10
       let filteredPeople := people.filter
         (fun p => decide (congress ∈ p.membership.map mapCongressId))
       let totalPeople := filteredPeople.length
       let endIndex := min (start + size) totalPeople
       let chunk := (filteredPeople.drop start).take (endIndex - start)
       ∃ n, resp = .ok n chunk.length totalPeople
          (if endIndex < totalPeople then some endIndex else none) ∧
        eff.personDocWrites.map Prod.fst = chunk.map MemberDDL.author_id ∧
        chunk ++ filteredPeople.drop endIndex = filteredPeople.drop start ∧
        (¬ endIndex < totalPeople → chunk = filteredPeople.drop start))) ∧
    (∀ pid resp eff,
      indexDocumentsRoute role key key congress (some pid) startIndex
          chunkSize (some people) pages existingDocs fuel =
        some (resp, eff) →
      ∃ n, resp = .ok n 1 1 none ∧
        eff.personDocWrites.map Prod.fst = [pid]) := by
  constructor
  · intro resp eff h
    rw [indexDocumentsRoute, if_neg (fun hk => hk rfl)] at h
    simp only at h
    split at h
    · exact absurd h (by simp)
    · rename_i n iw pw hpc
      simp only [Option.some.injEq, Prod.mk.injEq] at h
      obtain ⟨hresp, heff⟩ := h
      refine ⟨n, hresp.symm, ?_, ?_, ?_⟩
      · rw [← heff]
        exact processChunk_ids hpc
      · exact slice_append_drop _ _ _
      · intro hend
        have h1 : min (startIndex.getD 0 + chunkSize.getD 10)
            (List.filter (fun p =>
              decide (congress ∈ List.map mapCongressId p.membership))
              people).length =
            (List.filter (fun p =>
              decide (congress ∈ List.map mapCongressId p.membership))
              people).length := by omega
        have h2 := slice_append_drop
          (List.filter (fun p =>
            decide (congress ∈ List.map mapCongressId p.membership)) people)
          (startIndex.getD 0) (chunkSize.getD 10)
        rw [h1] at h2 ⊢
        rw [List.drop_length, List.append_nil] at h2
        exact h2
  · intro pid resp eff h
    rw [indexDocumentsRoute, if_neg (fun hk => hk rfl)] at h
    split at h
    · exact absurd h (by simp)
    · rename_i st cached hst
      simp only [Option.some.injEq, Prod.mk.injEq] at h
      obtain ⟨hresp, heff⟩ := h
      exact ⟨st.indexed, hresp.symm, by rw [← heff]; rfl⟩

/-- Witness for C7: a population of three congress-20 members, default
start 0 and `chunkSize = 2`; the run processes the first two members and
reports `totalPeople = 3`, `nextStartIndex = 2`. -/
theorem resumable_chunk_cursor_witness :
    ∃ n, (IndexDocsResp.ok 0 2 3 (some 2)) = .ok n 2 3 (some 2) ∧
      ([("A", ([] : List DocRef)), ("B", [])].map Prod.fst =
        [("A" : String), "B"]) := by
  have hpop : indexDocumentsRoute "authors" "k" "k" 20 none none (some 2)
      (some [⟨"A", "MEMBER A", [20]⟩, ⟨"B", "MEMBER B", [20]⟩,
             ⟨"C", "MEMBER C", [20]⟩])
      (fun _ _ => none) (fun _ => []) 2 =
      some (.ok 0 2 3 (some 2), ⟨true, false, [], [("A", []), ("B", [])]⟩) := by
    decide
  obtain ⟨n, h1, h2, -⟩ := (resumable_chunk_cursor "authors" "k" 20 none
    (some 2) [⟨"A", "MEMBER A", [20]⟩, ⟨"B", "MEMBER B", [20]⟩,
              ⟨"C", "MEMBER C", [20]⟩]
    (fun _ _ => none) (fun _ => []) 2).1 _ _ hpop
  exact ⟨n, h1, by decide⟩

/-! ## The retry controller (`retryWithBackoff` in the seed script)

`retryWithBackoff(fn, maxRetries = 3, baseDelay = 5000)` runs
`for (attempt = 0; attempt <= maxRetries; attempt++)`: a successful call
returns `{success: true, data}` at once; a failing call stores the error
and, when retries remain, sleeps `baseDelay * 2^attempt` ms; after the
loop it returns `{success: false, error: lastError}`.

The wrapped unit of work is modelled as `fn : Nat → Except String α`
giving each attempt's outcome; the embedding additionally returns the
number of attempts executed and the list of delays slept. -/

/-- The tagged result `{success: true, data} | {success: false, error}`. -/
inductive RetryResult (α : Type) where
  | ok (data : α)
  | failed (error : String)
deriving DecidableEq, Repr

/-- The retry loop over the remaining attempt indices, threading
`lastError`; returns (result, attempts executed, delays slept). -/
def retryGo {α : Type} (fn : Nat → Except String α)
    (baseDelay maxRetries : Nat) :
    List Nat → String → RetryResult α × Nat × List Nat
  | [], lastErr => (.failed lastErr, 0, [])
  | attempt :: rest, _ =>
    match fn attempt with
    | .ok v => (.ok v, 1, [])
    | .error e =>
      if attempt < maxRetries then
        let r := retryGo fn baseDelay maxRetries rest e
        (r.1, r.2.1 + 1, baseDelay * 2 ^ attempt :: r.2.2)
      else (.failed e, 1, [])

/-- `retryWithBackoff` with its default parameters made explicit. -/
def retryWithBackoff {α : Type} (fn : Nat → Except String α)
    (maxRetries : Nat := 3) (baseDelay : Nat := 5000) :
    RetryResult α × Nat × List Nat :=
  retryGo fn baseDelay maxRetries (List.range (maxRetries + 1)) ""

/-- C9: Retry controller contract, at the default `maxRetries = 3` and an
arbitrary base delay.  The unit of work runs at most 4 times; if the
first success is at attempt `j ≤ 3` the result is `{success: true}` with
that attempt's value after `j + 1` executions and delays
`baseDelay * 2^0, …, baseDelay * 2^(j-1)` between consecutive attempts;
if all 4 attempts fail the result is `{success: false}` carrying the last
attempt's error, after delays `baseDelay * 2^0, baseDelay * 2^1,
baseDelay * 2^2`. -/
theorem retry_controller_contract {α : Type} (fn : Nat → Except String α)
    (b : Nat) :
    (retryWithBackoff fn 3 b).2.1 ≤ 4 ∧
    (∀ j v, j ≤ 3 → (∀ i, i < j → ∃ e, fn i = Except.error e) →
      fn j = Except.ok v →
      (retryWithBackoff fn 3 b).1 = RetryResult.ok v ∧
      (retryWithBackoff fn 3 b).2.1 = j + 1 ∧
      (retryWithBackoff fn 3 b).2.2 =
        (List.range j).map (fun i => b * 2 ^ i)) ∧
    (∀ e, (∀ i, i < 3 → ∃ e', fn i = Except.error e') →
      fn 3 = Except.error e →
      (retryWithBackoff fn 3 b).1 = RetryResult.failed e ∧
      (retryWithBackoff fn 3 b).2.1 = 4 ∧
      (retryWithBackoff fn 3 b).2.2 = [b * 2 ^ 0, b * 2 ^ 1, b * 2 ^ 2]) := by
  have hr4 : List.range (3 + 1) = [0, 1, 2, 3] := by decide
  refine ⟨?_, ?_, ?_⟩
  · rcases h0 : fn 0 with e0 | v0 <;>
      rcases h1 : fn 1 with e1 | v1 <;>
        rcases h2 : fn 2 with e2 | v2 <;>
          rcases h3 : fn 3 with e3 | v3 <;>
            simp [retryWithBackoff, hr4, retryGo, h0, h1, h2, h3]
  · intro j v hj hprev hok
    interval_cases j
    · refine ⟨?_, ?_, ?_⟩ <;> simp [retryWithBackoff, hr4, retryGo, hok]
    · obtain ⟨e0, h0⟩ := hprev 0 (by omega)
      refine ⟨?_, ?_, ?_⟩ <;>
        simp [retryWithBackoff, hr4, retryGo, h0, hok, List.range_succ]
    · obtain ⟨e0, h0⟩ := hprev 0 (by omega)
      obtain ⟨e1, h1⟩ := hprev 1 (by omega)
      refine ⟨?_, ?_, ?_⟩ <;>
        simp [retryWithBackoff, hr4, retryGo, h0, h1, hok, List.range_succ]
    · obtain ⟨e0, h0⟩ := hprev 0 (by omega)
      obtain ⟨e1, h1⟩ := hprev 1 (by omega)
      obtain ⟨e2, h2⟩ := hprev 2 (by omega)
      refine ⟨?_, ?_, ?_⟩ <;>
        simp [retryWithBackoff, hr4, retryGo, h0, h1, h2, hok, List.range_succ]
  · intro e hprev h3
    obtain ⟨e0, h0⟩ := hprev 0 (by omega)
    obtain ⟨e1, h1⟩ := hprev 1 (by omega)
    obtain ⟨e2, h2⟩ := hprev 2 (by omega)
    refine ⟨?_, ?_, ?_⟩ <;>
      simp [retryWithBackoff, hr4, retryGo, h0, h1, h2, h3]

/-- Witness for C9: a unit of work failing on attempts 0 and 1 and
succeeding on attempt 2, with the default 5000 ms base delay: success
value 42 after 3 executions and delays 5000 ms then 10000 ms. -/
theorem retry_controller_contract_witness :
    (retryWithBackoff
        (fun i => if i < 2 then Except.error "boom" else Except.ok 42)
        3 5000).1 = RetryResult.ok 42 ∧
    (retryWithBackoff
        (fun i => if i < 2 then Except.error "boom" else Except.ok 42)
        3 5000).2.1 = 3 ∧
    (retryWithBackoff
        (fun i => if i < 2 then Except.error "boom" else Except.ok 42)
        3 5000).2.2 = [5000, 10000] := by
  obtain ⟨ha, hb, hc⟩ := (retry_controller_contract
      (fun i => if i < 2 then Except.error "boom" else Except.ok (42 : Nat))
      5000).2.1 2 42 (by omega)
    (fun i hi => ⟨"boom", by simp [hi]⟩) (by simp)
  exact ⟨ha, hb, by rw [hc]; decide⟩

/-! ## The chunked seed script (`indexCoAuthors` / `indexAuthors`)

The script fetches the list of person ids for the congress from
`/info/people` (a failure there aborts the whole run with a `false`
result), then for each person wraps the indexing POST in
`retryWithBackoff`; an exhausted unit is appended to `failedItems` (with
`retryResult.error || "Unknown error"`) and the loop continues; a
successful unit's `indexed` count is added to `totalIndexed`. -/

/-- The summary of one script run: overall result flag, people processed,
total relationships indexed, and the failure list `(personId, error)`. -/
structure ScriptResult where
  ok : Bool
  processedCount : Nat
  totalIndexed : Nat
  failedItems : List (String × String)
deriving DecidableEq, Repr

/-- One iteration of the per-person loop, around `retryWithBackoff` at its
default parameters; the accumulator is
(processedCount, totalIndexed, failedItems). -/
def scriptStep (unitAttempts : String → Nat → Except String Nat)
    (acc : Nat × Nat × List (String × String)) (pid : String) :
    Nat × Nat × List (String × String) :=
  match (retryWithBackoff (unitAttempts pid)).1 with
  | .failed e =>
    (acc.1 + 1, acc.2.1,
      acc.2.2 ++ [(pid, if e = "" then "Unknown error" else e)])
  | .ok n => (acc.1 + 1, acc.2.1 + n, acc.2.2)

/-- The whole script run. `personIds = none` models a failed `/info/people`
fetch (either a non-OK response or `success: false`).
`unitAttempts pid i` is the outcome of attempt `i` of the indexing POST
for person `pid` (its value the route's `indexed` count). -/
def indexDocsScript (personIds : Option (List String))
    (unitAttempts : String → Nat → Except String Nat) : ScriptResult :=
  match personIds with
  | none => ⟨false, 0, 0, []⟩
  | some ids =>
    let acc := ids.foldl (scriptStep unitAttempts) (0, 0, [])
    ⟨true, acc.1, acc.2.1, acc.2.2⟩

/-- The failure-list entry a person contributes, if any. -/
def failEntry (unitAttempts : String → Nat → Except String Nat)
    (pid : String) : Option (String × String) :=
  match (retryWithBackoff (unitAttempts pid)).1 with
  | .failed e => some (pid, if e = "" then "Unknown error" else e)
  | .ok _ => none

/-- The `indexed` count a person contributes (0 when exhausted). -/
def unitIndexed (unitAttempts : String → Nat → Except String Nat)
    (pid : String) : Nat :=
  match (retryWithBackoff (unitAttempts pid)).1 with
  | .failed _ => 0
  | .ok n => n

theorem scriptStep_foldl (unitAttempts : String → Nat → Except String Nat)
    (ids : List String) :
    ∀ acc : Nat × Nat × List (String × String),
      ids.foldl (scriptStep unitAttempts) acc =
        (acc.1 + ids.length,
         acc.2.1 + (ids.map (unitIndexed unitAttempts)).sum,
         acc.2.2 ++ ids.filterMap (failEntry unitAttempts)) := by
  induction ids with
  | nil => intro acc; simp
  | cons pid rest ih =>
    intro acc
    rw [List.foldl_cons, ih]
    rcases h : (retryWithBackoff (unitAttempts pid)).1 with n | e
    · simp only [scriptStep, h, unitIndexed, failEntry, List.map_cons,
        List.sum_cons, List.filterMap_cons, List.length_cons]
      refine congrArg₂ _ (by omega) (congrArg₂ _ (by omega) ?_)
      simp [failEntry, h]
    · simp only [scriptStep, h, unitIndexed, failEntry, List.map_cons,
        List.sum_cons, List.filterMap_cons, List.length_cons]
      refine congrArg₂ _ (by omega) (congrArg₂ _ (by omega) ?_)
      simp [failEntry, h]

/-- C5: Partial-failure isolation.  A failed population fetch aborts the
whole run with an error result and nothing processed; otherwise every
unit is processed regardless of other units' failures: the result is an
overall success whose `processedCount` covers all units, whose
`failedItems` has exactly one entry per retry-exhausted unit, carrying
that unit's id and last error, in population order, and whose
`totalIndexed` accumulates the committed counts of exactly the
successful units. -/
theorem partial_failure_isolation
    (unitAttempts : String → Nat → Except String Nat) :
    indexDocsScript none unitAttempts = ⟨false, 0, 0, []⟩ ∧
    (∀ ids : List String,
      (indexDocsScript (some ids) unitAttempts).ok = true ∧
      (indexDocsScript (some ids) unitAttempts).processedCount =
        ids.length ∧
      (indexDocsScript (some ids) unitAttempts).failedItems =
        ids.filterMap (failEntry unitAttempts) ∧
      (indexDocsScript (some ids) unitAttempts).totalIndexed =
        (ids.map (unitIndexed unitAttempts)).sum) := by
  refine ⟨rfl, ?_⟩
  intro ids
  simp only [indexDocsScript, scriptStep_foldl]
  refine ⟨by simp, by simp, by simp, by simp⟩

/-- Witness for C5, the spec's scenario: a chunk of 5 people where the
third always fails upstream; the run is an overall success, processes all
5, indexes the 4 successful units' counts and reports exactly one failure
naming `"P3"`. -/
theorem partial_failure_isolation_witness :
    (indexDocsScript (some ["P1", "P2", "P3", "P4", "P5"])
        (fun pid _ => if pid = "P3" then Except.error "down"
                      else Except.ok 10)).ok = true ∧
    (indexDocsScript (some ["P1", "P2", "P3", "P4", "P5"])
        (fun pid _ => if pid = "P3" then Except.error "down"
                      else Except.ok 10)).processedCount = 5 ∧
    (indexDocsScript (some ["P1", "P2", "P3", "P4", "P5"])
        (fun pid _ => if pid = "P3" then Except.error "down"
                      else Except.ok 10)).failedItems = [("P3", "down")] ∧
    (indexDocsScript (some ["P1", "P2", "P3", "P4", "P5"])
        (fun pid _ => if pid = "P3" then Except.error "down"
                      else Except.ok 10)).totalIndexed = 40 := by
  obtain ⟨h1, h2, h3, h4⟩ := (partial_failure_isolation
      (fun pid _ => if pid = "P3" then Except.error "down"
                    else Except.ok 10)).2 ["P1", "P2", "P3", "P4", "P5"]
  exact ⟨h1, by rw [h2]; rfl, by rw [h3]; decide, by rw [h4]; decide⟩

/-! ## Membership and information indexing: atomic primary + secondary

`indexPeopleMembershipRoute` walks the DDL reference in groups of 100,
queuing, per member, the primary membership record and the
full-name pointer into one `kv.atomic()` commit.
`indexPeopleInformationRoute` pages through the member list; each page is
one atomic commit holding, per member, the primary information record,
conditionally the name-code pointer, and conditionally the co-authored
document list. -/

/-- A segment of a Deno KV key path. -/
inductive Seg where
  | s (v : String)
  | n (v : Int)
deriving DecidableEq, Repr

abbrev KeyPath := List Seg

/-- Values written by the membership/information routes. -/
inductive KVVal where
  | membership (v : List Int)
  | keyRef (v : KeyPath)
  | memberInfo (id : Int) (lastName firstName middleName : String)
      (suffix : Option String) (nickName : String)
  | coDocs (v : List DocRef)
deriving DecidableEq, Repr

/-- An entry of `principal_authored_bills` (only `name_code` is read). -/
structure PABEntry where
  name_code : Option String
deriving DecidableEq, Repr

/-- A row of the paginated `fetchHouseMembers` list. -/
structure MemberRow where
  id : Int
  author_id : String
  last_name : String
  first_name : String
  middle_name : String
  suffix : Option String
  nick_name : String
  principal_authored_bills : List PABEntry
deriving DecidableEq, Repr

/-- JavaScript truthiness of a nullable string (`null`, `undefined` and
`""` are falsy). -/
def jsTruthy : Option String → Bool
  | none => false
  | some v => decide (v ≠ "")

/-- `["people", "byPersonId", member.author_id, "membership"]`. -/
def membershipPrimaryKey (m : MemberDDL) : KeyPath :=
  [.s "people", .s "byPersonId", .s m.author_id, .s "membership"]

/-- `["people", "byPersonFullName", member.fullname, "membership"]`. -/
def membershipFullNameKey (m : MemberDDL) : KeyPath :=
  [.s "people", .s "byPersonFullName", .s m.fullname, .s "membership"]

/-- `response.data.slice(i, i + batchSize)` grouping of the member list. -/
def chunksOf {α : Type} : Nat → List α → List (List α)
  | _, [] => []
  | 0, _ :: _ => []
  | k + 1, a :: l =>
    (a :: l).take (k + 1) :: chunksOf (k + 1) ((a :: l).drop (k + 1))
termination_by _ l => l.length
decreasing_by simp; omega

theorem chunksOf_flatten {α : Type} (k : Nat) (hk : k ≠ 0) :
    ∀ fuel (l : List α), l.length ≤ fuel → (chunksOf k l).flatten = l := by
  intro fuel
  induction fuel with
  | zero =>
    intro l hl
    have hnil : l = [] := List.eq_nil_of_length_eq_zero (Nat.le_zero.mp hl)
    subst hnil
    simp [chunksOf]
  | succ fuel ih =>
    intro l hl
    cases l with
    | nil => simp [chunksOf]
    | cons a rest =>
      cases k with
      | zero => exact absurd rfl hk
      | succ k' =>
        rw [chunksOf, List.flatten_cons,
          ih _ (by simp at hl ⊢; omega), List.take_append_drop]

/-- The writes queued into one atomic commit for one group of members. -/
def membershipBatch (group : List MemberDDL) : List (KeyPath × KVVal) :=
  group.flatMap (fun m =>
    [(membershipPrimaryKey m, .membership (m.membership.map mapCongressId)),
     (membershipFullNameKey m, .keyRef (membershipPrimaryKey m))])

/-- The sequence of atomic commits of `indexPeopleMembershipRoute`
(group size 100). -/
def membershipBatches (rows : List MemberDDL) : List (List (KeyPath × KVVal)) :=
  (chunksOf 100 rows).map membershipBatch

/-- `["people", "byPersonId", member.author_id, "information"]`. -/
def infoPrimaryKey (m : MemberRow) : KeyPath :=
  [.s "people", .s "byPersonId", .s m.author_id, .s "information"]

/-- `["people", "byNameCode", nameCode, "information"]`. -/
def infoNameCodeKey (nc : String) : KeyPath :=
  [.s "people", .s "byNameCode", .s nc, .s "information"]

/-- `["people", "byPersonId", member.author_id, "coAuthoredDocuments"]`. -/
def coAuthoredDocsKey (m : MemberRow) : KeyPath :=
  [.s "people", .s "byPersonId", .s m.author_id, .s "coAuthoredDocuments"]

/-- The primary information record of one member. -/
def infoValue (m : MemberRow) : KVVal :=
  .memberInfo m.id m.last_name m.first_name m.middle_name m.suffix m.nick_name

/-- The writes queued for one member within one page's atomic commit:
always the primary record; the name-code pointer when
`principal_authored_bills` is non-empty and its first `name_code` is
truthy; the co-authored list when its fetch succeeded. -/
def memberInfoWrites (m : MemberRow) (coDocs : Option (List DocRef)) :
    List (KeyPath × KVVal) :=
  [(infoPrimaryKey m, infoValue m)] ++
  (match m.principal_authored_bills with
   | [] => []
   | e :: _ =>
     if jsTruthy e.name_code then
       [(infoNameCodeKey (e.name_code.getD ""), .keyRef (infoPrimaryKey m))]
     else []) ++
  (match coDocs with
   | some docs => [(coAuthoredDocsKey m, .coDocs docs)]
   | none => [])

/-- The co-authored document list attached to a member, when the
per-member fetch succeeds (`fetchCoAuthoredBills`, congress normalized). -/
def coDocsFor (coFetch : String → Option (List (Int × String)))
    (m : MemberRow) : Option (List DocRef) :=
  (coFetch m.author_id).map
    (List.map (fun p => ⟨mapCongressId p.1, p.2⟩))

/-- One page's atomic commit of `indexPeopleInformationRoute`. -/
def infoPageBatch (coFetch : String → Option (List (Int × String)))
    (rows : List MemberRow) : List (KeyPath × KVVal) :=
  rows.flatMap (fun m => memberInfoWrites m (coDocsFor coFetch m))

/-- The page loop of `indexPeopleInformationRoute`: one commit per page;
`pages k = none` models a failed member-list fetch, which returns the 500
error leaving earlier commits in place (`Bool` flag false); otherwise the
loop breaks once `page >= ceil(count / 100) - 1`.  Outer `none` = fuel ran
out. -/
def runInfoLoop (pages : Nat → Option (Nat × List MemberRow))
    (coFetch : String → Option (List (Int × String))) :
    Nat → Nat → List (List (KeyPath × KVVal)) →
      Option (Bool × List (List (KeyPath × KVVal)))
  | 0, _, _ => none
  | fuel + 1, page, committed =>
    match pages page with
    | none => some (false, committed)
    | some (count, rows) =>
      let committed := committed ++ [infoPageBatch coFetch rows]
      if page + 1 ≥ (count + 99) / 100 then some (true, committed)
      else runInfoLoop pages coFetch fuel (page + 1) committed

theorem runInfoLoop_batches {pages : Nat → Option (Nat × List MemberRow)}
    {coFetch : String → Option (List (Int × String))} :
    ∀ {fuel page : Nat} {committed : List (List (KeyPath × KVVal))}
      {flag : Bool} {batches : List (List (KeyPath × KVVal))},
      runInfoLoop pages coFetch fuel page committed = some (flag, batches) →
      ∀ b ∈ batches, b ∈ committed ∨ ∃ rows, b = infoPageBatch coFetch rows := by
  intro fuel
  induction fuel with
  | zero => intro page committed flag batches h; simp [runInfoLoop] at h
  | succ fuel ih =>
    intro page committed flag batches h
    rw [runInfoLoop] at h
    split at h
    · simp only [Option.some.injEq, Prod.mk.injEq] at h
      intro b hb
      rw [← h.2] at hb
      exact Or.inl hb
    · rename_i count rows heq
      split at h
      · simp only [Option.some.injEq, Prod.mk.injEq] at h
        intro b hb
        rw [← h.2] at hb
        rcases List.mem_append.mp hb with hb | hb
        · exact Or.inl hb
        · exact Or.inr ⟨rows, (List.mem_singleton.mp hb)⟩
      · intro b hb
        rcases ih h b hb with hb' | hb'
        · rcases List.mem_append.mp hb' with hb'' | hb''
          · exact Or.inl hb''
          · exact Or.inr ⟨rows, (List.mem_singleton.mp hb'')⟩
        · exact Or.inr hb'

theorem infoPageBatch_keyRef {coFetch : String → Option (List (Int × String))}
    {rows : List MemberRow} {k : KeyPath} {p : KeyPath}
    (h : (k, KVVal.keyRef p) ∈ infoPageBatch coFetch rows) :
    ∃ v, (p, v) ∈ infoPageBatch coFetch rows := by
  obtain ⟨m, hm, hw⟩ := List.mem_flatMap.mp h
  have hp : p = infoPrimaryKey m := by
    simp only [memberInfoWrites, List.mem_append, List.mem_singleton] at hw
    rcases hw with (hw | hw) | hw
    · simp [infoValue] at hw
    · split at hw
      · simp at hw
      · split at hw
        · have hw' := List.mem_singleton.mp hw
          have h2 : KVVal.keyRef p = KVVal.keyRef (infoPrimaryKey m) :=
            congrArg Prod.snd hw'
          injection h2
        · simp at hw
    · split at hw
      · simp at hw
      · simp at hw
  refine ⟨infoValue m, ?_⟩
  rw [hp]
  exact List.mem_flatMap.mpr ⟨m, hm, by simp [memberInfoWrites]⟩

theorem membershipBatch_keyRef {group : List MemberDDL} {k p : KeyPath}
    (h : (k, KVVal.keyRef p) ∈ membershipBatch group) :
    ∃ v, (p, v) ∈ membershipBatch group := by
  obtain ⟨m, hm, hw⟩ := List.mem_flatMap.mp h
  have hp : p = membershipPrimaryKey m := by
    simp only [List.mem_cons, List.not_mem_nil, or_false,
      Prod.mk.injEq] at hw
    rcases hw with ⟨-, hv⟩ | ⟨-, hv⟩
    · exact absurd hv (by simp)
    · injection hv
  refine ⟨KVVal.membership (m.membership.map mapCongressId), ?_⟩
  rw [hp]
  exact List.mem_flatMap.mpr ⟨m, hm, by simp [membershipBatch]⟩

/-- C3: Atomic primary+secondary commit invariant.  In the membership
route, every atomic batch that contains a secondary-index pointer also
contains, in the same batch, a write of the pointed-to primary key, and
every member of the population has one batch holding both its primary
membership record and its full-name pointer.  In the information route,
the same holds of every batch committed by any terminating page loop
(succeeding or aborting on a failed fetch), and within a page's batch
every member has its primary information record, together with its
name-code pointer whenever one is written. -/
theorem atomic_primary_secondary :
    (∀ (rows : List MemberDDL) (b : List (KeyPath × KVVal)),
      b ∈ membershipBatches rows →
      ∀ k p, (k, KVVal.keyRef p) ∈ b → ∃ v, (p, v) ∈ b) ∧
    (∀ (rows : List MemberDDL), ∀ m ∈ rows,
      ∃ b ∈ membershipBatches rows,
        (membershipPrimaryKey m,
          KVVal.membership (m.membership.map mapCongressId)) ∈ b ∧
        (membershipFullNameKey m,
          KVVal.keyRef (membershipPrimaryKey m)) ∈ b) ∧
    (∀ (pages : Nat → Option (Nat × List MemberRow))
      (coFetch : String → Option (List (Int × String)))
      (fuel : Nat) (flag : Bool)
      (batches : List (List (KeyPath × KVVal))),
      runInfoLoop pages coFetch fuel 0 [] = some (flag, batches) →
      ∀ b ∈ batches, ∀ k p, (k, KVVal.keyRef p) ∈ b → ∃ v, (p, v) ∈ b) ∧
    (∀ (coFetch : String → Option (List (Int × String)))
      (rows : List MemberRow), ∀ m ∈ rows,
      (infoPrimaryKey m, infoValue m) ∈ infoPageBatch coFetch rows ∧
      (∀ e rest, m.principal_authored_bills = e :: rest →
        jsTruthy e.name_code = true →
        (infoNameCodeKey (e.name_code.getD ""),
          KVVal.keyRef (infoPrimaryKey m)) ∈ infoPageBatch coFetch rows)) := by
  refine ⟨?_, ?_, ?_, ?_⟩
  · intro rows b hb k p hw
    obtain ⟨group, -, hb'⟩ := List.mem_map.mp hb
    rw [← hb'] at hw ⊢
    exact membershipBatch_keyRef hw
  · intro rows m hm
    have hflat : (chunksOf 100 rows).flatten = rows :=
      chunksOf_flatten 100 (by decide) rows.length rows (Nat.le_refl _)
    rw [← hflat] at hm
    obtain ⟨group, hg, hmg⟩ := List.mem_flatten.mp hm
    refine ⟨membershipBatch group, List.mem_map.mpr ⟨group, hg, rfl⟩, ?_, ?_⟩
    · exact List.mem_flatMap.mpr ⟨m, hmg, by simp [membershipBatch]⟩
    · exact List.mem_flatMap.mpr ⟨m, hmg, by simp [membershipBatch]⟩
  · intro pages coFetch fuel flag batches hrun b hb k p hw
    rcases runInfoLoop_batches hrun b hb with hb' | ⟨rows, rfl⟩
    · simp at hb'
    · exact infoPageBatch_keyRef hw
  · intro coFetch rows m hm
    constructor
    · exact List.mem_flatMap.mpr ⟨m, hm, by simp [memberInfoWrites]⟩
    · intro e rest he htruthy
      refine List.mem_flatMap.mpr ⟨m, hm, ?_⟩
      simp only [memberInfoWrites, List.mem_append]
      refine Or.inl (Or.inr ?_)
      rw [he]
      simp [htruthy]

/-- Witness for C3 at a concrete population: one member batch and one
information page, both carrying the primary record and its pointer in
the same commit. -/
theorem atomic_primary_secondary_witness :
    (∃ b ∈ membershipBatches [⟨"A", "MEMBER A", [103]⟩],
      (membershipPrimaryKey ⟨"A", "MEMBER A", [103]⟩,
        KVVal.membership [20]) ∈ b ∧
      (membershipFullNameKey ⟨"A", "MEMBER A", [103]⟩,
        KVVal.keyRef (membershipPrimaryKey ⟨"A", "MEMBER A", [103]⟩)) ∈ b) ∧
    (infoPrimaryKey ⟨7, "A", "LAST", "FIRST", "M.", none, "NICK",
        [⟨some "NC"⟩]⟩,
      infoValue ⟨7, "A", "LAST", "FIRST", "M.", none, "NICK",
        [⟨some "NC"⟩]⟩) ∈
      infoPageBatch (fun _ => none)
        [⟨7, "A", "LAST", "FIRST", "M.", none, "NICK", [⟨some "NC"⟩]⟩] ∧
    (infoNameCodeKey "NC",
      KVVal.keyRef (infoPrimaryKey ⟨7, "A", "LAST", "FIRST", "M.", none,
        "NICK", [⟨some "NC"⟩]⟩)) ∈
      infoPageBatch (fun _ => none)
        [⟨7, "A", "LAST", "FIRST", "M.", none, "NICK", [⟨some "NC"⟩]⟩] := by
  obtain ⟨hp, hs⟩ := atomic_primary_secondary.2.2.2 (fun _ => none)
    [⟨7, "A", "LAST", "FIRST", "M.", none, "NICK", [⟨some "NC"⟩]⟩]
    ⟨7, "A", "LAST", "FIRST", "M.", none, "NICK", [⟨some "NC"⟩]⟩
    (List.mem_singleton.mpr rfl)
  refine ⟨?_, hp, ?_⟩
  · exact atomic_primary_secondary.2.1 [⟨"A", "MEMBER A", [103]⟩]
      ⟨"A", "MEMBER A", [103]⟩ (List.mem_singleton.mpr rfl)
  · exact hs ⟨some "NC"⟩ [] rfl (by decide)

/-! ## Handler wrappers and the authorization guard

Every indexing handler begins with
`if (key !== INDEXER_KEY) return 401` before `openKv()` and before any
upstream fetch.  The wrappers below model each handler's response
together with its effects trace. -/

/-- Responses of the membership handler. -/
inductive MembershipResp where
  | unauthorized
  | fetchError
  | ok (indexed : Nat)
deriving DecidableEq, Repr

/-- Effects of the batch-committing handlers. -/
structure BatchEffects where
  kvOpened : Bool
  kvClosed : Bool
  batches : List (List (KeyPath × KVVal))
deriving DecidableEq, Repr

/-- `indexPeopleMembershipRoute`: guard, open KV, fetch the DDL
reference (failure returns the 500 without closing), else commit the
batches and close.  `indexed` counts every member. -/
def indexPeopleMembershipRoute (key secret : String)
    (ddl : Option (List MemberDDL)) : MembershipResp × BatchEffects :=
  if key ≠ secret then (.unauthorized, ⟨false, false, []⟩)
  else
    match ddl with
    | none => (.fetchError, ⟨true, false, []⟩)
    | some rows => (.ok rows.length, ⟨true, true, membershipBatches rows⟩)

/-- Responses of the information handler (the indexed count is not
modelled). -/
inductive InfoIndexResp where
  | unauthorized
  | fetchError
  | done
deriving DecidableEq, Repr

/-- `indexPeopleInformationRoute`: guard, open KV, run the page loop;
a mid-loop fetch failure closes the KV and returns the 500 with the
earlier pages' commits in place. -/
def indexPeopleInformationRoute (key secret : String)
    (pages : Nat → Option (Nat × List MemberRow))
    (coFetch : String → Option (List (Int × String)))
    (fuel : Nat) : Option (InfoIndexResp × BatchEffects) :=
  if key ≠ secret then some (.unauthorized, ⟨false, false, []⟩)
  else
    match runInfoLoop pages coFetch fuel 0 [] with
    | none => none
    | some (false, batches) => some (.fetchError, ⟨true, true, batches⟩)
    | some (true, batches) => some (.done, ⟨true, true, batches⟩)

/-- Responses of the committee-documents handler. -/
inductive CommitteesResp where
  | unauthorized
  | ok (indexed : Nat)
deriving DecidableEq, Repr

/-- `indexCommitteesRoute`: guard, open KV, run the shared pagination
loop with role `"committees"` and the committee id, close, respond. -/
def indexCommitteesRoute (key secret : String) (congress : Int)
    (committeeId : String) (pages : Nat → Option (List String))
    (fuel : Nat) : Option (CommitteesResp × RouteEffects) :=
  if key ≠ secret then some (.unauthorized, .none)
  else
    match runSearchLoop congress "committees" committeeId pages fuel 0
        .init with
    | none => none
    | some st => some (.ok st.indexed, ⟨true, true, st.invertedWrites, []⟩)

/-- Responses of the single-document information handler. -/
inductive DocInfoResp where
  | unauthorized
  | fetchError
  | notFound
  | ok
deriving DecidableEq, Repr

/-- Effects of the single-document handler: the one cached
`(congress, documentKey, titleFull, titleShort, dateFiled)` record. -/
structure DocInfoEffects where
  kvOpened : Bool
  kvClosed : Bool
  writes : List (Int × String × String × String × String)
deriving DecidableEq, Repr

/-- `indexDocumentsInformationRoute`: guard, open KV, fetch the bill at
the upstream id `mapToApiId congress`, cache its title/short-title/date
triple, closing the KV on each return path. -/
def indexDocumentsInformationRoute (key secret : String) (congress : Int)
    (documentKey : String)
    (billFetch : Int → String → Option (List (String × String × String))) :
    DocInfoResp × DocInfoEffects :=
  if key ≠ secret then (.unauthorized, ⟨false, false, []⟩)
  else
    match billFetch (mapToApiId congress) documentKey with
    | none => (.fetchError, ⟨true, true, []⟩)
    | some [] => (.notFound, ⟨true, true, []⟩)
    | some (bill :: _) =>
      (.ok, ⟨true, true,
        [(congress, documentKey, bill.1, bill.2.1, bill.2.2)]⟩)

/-- C8: Authorization atomicity.  For every indexing-trigger request
whose key differs from the configured secret, each handler —
membership, information, committees information-or-documents, authors /
co-authors (any role), single document — returns the 401 Unauthorized
response with an empty effects trace: no KV connection opened, no
upstream fetch consumed, no batch and no write of any kind. -/
theorem authorization_guard (key secret : String) (h : key ≠ secret) :
    (∀ ddl, indexPeopleMembershipRoute key secret ddl =
      (.unauthorized, ⟨false, false, []⟩)) ∧
    (∀ pages coFetch fuel,
      indexPeopleInformationRoute key secret pages coFetch fuel =
        some (.unauthorized, ⟨false, false, []⟩)) ∧
    (∀ congress committeeId pages fuel,
      indexCommitteesRoute key secret congress committeeId pages fuel =
        some (.unauthorized, .none)) ∧
    (∀ role congress personId startIndex chunkSize ddl pages existingDocs
        fuel,
      indexDocumentsRoute role key secret congress personId startIndex
          chunkSize ddl pages existingDocs fuel =
        some (.unauthorized, .none)) ∧
    (∀ congress documentKey billFetch,
      indexDocumentsInformationRoute key secret congress documentKey
          billFetch =
        (.unauthorized, ⟨false, false, []⟩)) := by
  refine ⟨?_, ?_, ?_, ?_, ?_⟩
  · intro ddl; simp [indexPeopleMembershipRoute, h]
  · intro pages coFetch fuel
    simp [indexPeopleInformationRoute, h]
  · intro congress committeeId pages fuel
    simp [indexCommitteesRoute, h]
  · intro role congress personId startIndex chunkSize ddl pages
      existingDocs fuel
    simp [indexDocumentsRoute, h]
  · intro congress documentKey billFetch
    simp [indexDocumentsInformationRoute, h]

/-- Witness for C8: a concrete wrong key against each handler. -/
theorem authorization_guard_witness :
    indexPeopleMembershipRoute "wrong" "secret" (some []) =
      (.unauthorized, ⟨false, false, []⟩) ∧
    indexPeopleInformationRoute "wrong" "secret" (fun _ => none)
        (fun _ => none) 5 =
      some (.unauthorized, ⟨false, false, []⟩) ∧
    indexCommitteesRoute "wrong" "secret" 20 "0543" (fun _ => none) 5 =
      some (.unauthorized, .none) ∧
    indexDocumentsRoute "authors" "wrong" "secret" 20 none none none
        (some []) (fun _ _ => none) (fun _ => []) 5 =
      some (.unauthorized, .none) ∧
    indexDocumentsInformationRoute "wrong" "secret" 20 "HB00001"
        (fun _ _ => none) =
      (.unauthorized, ⟨false, false, []⟩) := by
  have h := authorization_guard "wrong" "secret" (by decide)
  exact ⟨h.1 _, h.2.1 _ _ _, h.2.2.1 _ _ _ _, h.2.2.2.1 _ _ _ _ _ _ _ _ _,
    h.2.2.2.2 _ _ _⟩

/-- C6 (refuted by the code): the authors and co-authors handlers open a
KV connection and return their success response without ever releasing
it — here a complete authorized single-person run of each role returns
the 200 response with `kvOpened = true` and `kvClosed = false`, and the
chunked population-fetch-failure path likewise returns its 500 with the
connection still open. -/
theorem authors_route_leaks_connection :
    (indexDocumentsRoute "authors" "k" "k" 20 (some "P1") none none
        (some []) (fun _ _ => none) (fun _ => []) 2 =
      some (.ok 0 1 1 none, ⟨true, false, [], [("P1", [])]⟩)) ∧
    (indexDocumentsRoute "coAuthors" "k" "k" 20 (some "P1") none none
        (some []) (fun _ _ => none) (fun _ => []) 2 =
      some (.ok 0 1 1 none, ⟨true, false, [], [("P1", [])]⟩)) ∧
    (indexDocumentsRoute "authors" "k" "k" 20 none none none
        none (fun _ _ => none) (fun _ => []) 2 =
      some (.ddlError, ⟨true, false, [], []⟩)) := by
  refine ⟨by decide, by decide, by decide⟩

/-! ## The `/info/people` membership mapping (src/routes/people.ts)

The handler walks the DDL rows, pushing each member's `author_id` under
every normalized congress of its membership into `congressMap` (a
string-keyed object, modelled as an association list updated at the
first matching key), then emits the keys in ascending numeric order with
each id array sorted ascending (JavaScript default string sort =
lexicographic by code unit; Lean's `String` order is the code-point
lexicographic order, which agrees on these ids). -/

/-- The `(congress, author_id)` pushes, in the handler's nested loop
order. -/
def memberPairs (rows : List MemberDDL) : List (Int × String) :=
  rows.flatMap (fun m =>
    (m.membership.map mapCongressId).map (fun c => (c, m.author_id)))

/-- `congressMap[congressKey].push(member.author_id)` with on-demand
creation of the entry. -/
def addToMap : List (Int × List String) → Int → String →
    List (Int × List String)
  | [], c, pid => [(c, [pid])]
  | (g, ids) :: rest, c, pid =>
    if g = c then (g, ids ++ [pid]) :: rest
    else (g, ids) :: addToMap rest c pid

/-- The `congressMap` object after the nested loops. -/
def buildCongressMap (rows : List MemberDDL) : List (Int × List String) :=
  (memberPairs rows).foldl (fun acc p => addToMap acc p.1 p.2) []

/-- Reading an id list out of the map (`[]` when the key is absent). -/
def lookupIds (c : Int) (m : List (Int × List String)) : List String :=
  (List.lookup c m).getD []

/-- The ids contributed to congress `c` by a pair sequence, in order. -/
def pairsFor (c : Int) (ps : List (Int × String)) : List String :=
  ps.filterMap (fun p => if p.1 = c then some p.2 else none)

/-- The handler's response body: keys sorted numerically ascending, each
id array sorted ascending. -/
def infoPeopleData (rows : List MemberDDL) : List (Int × List String) :=
  (List.insertionSort (· ≤ ·) ((buildCongressMap rows).map Prod.fst)).map
    (fun c =>
      (c, List.insertionSort (· ≤ ·) (lookupIds c (buildCongressMap rows))))

theorem addToMap_lookup (acc : List (Int × List String)) (g : Int)
    (pid : String) (c : Int) :
    lookupIds c (addToMap acc g pid) =
      lookupIds c acc ++ (if g = c then [pid] else []) := by
  induction acc with
  | nil =>
    by_cases h : g = c
    · subst h; simp [addToMap, lookupIds, List.lookup]
    · have hcg : ¬ c = g := fun hh => h hh.symm
      have hbeq : (c == g) = false := by simp [hcg]
      simp [addToMap, lookupIds, List.lookup, h, hbeq]
  | cons e rest ih =>
    obtain ⟨k, ids⟩ := e
    simp only [addToMap]
    by_cases hck : c = k
    · subst hck
      by_cases hcg : c = g
      · subst hcg
        simp [lookupIds, List.lookup]
      · have h1 : ¬ g = c := fun hh => hcg hh.symm
        rw [if_neg (fun hh => hcg hh)]
        simp [lookupIds, List.lookup, h1]
    · have hbeq : (c == k) = false := by simp [hck]
      by_cases hkg : k = g
      · rw [if_pos hkg]
        have h1 : ¬ g = c := by
          rw [← hkg]; exact fun hh => hck hh.symm
        simp [lookupIds, List.lookup, hbeq, h1]
      · rw [if_neg hkg]
        simp only [lookupIds, List.lookup, hbeq] at ih ⊢
        exact ih

theorem foldl_addToMap_lookup (ps : List (Int × String)) :
    ∀ acc (c : Int),
      lookupIds c (ps.foldl (fun a p => addToMap a p.1 p.2) acc) =
        lookupIds c acc ++ pairsFor c ps := by
  induction ps with
  | nil => intro acc c; simp [pairsFor]
  | cons p rest ih =>
    intro acc c
    rw [List.foldl_cons, ih, addToMap_lookup]
    by_cases h : p.1 = c
    · simp [pairsFor, List.filterMap_cons, h]
    · simp [pairsFor, List.filterMap_cons, h]

theorem addToMap_keys (acc : List (Int × List String)) (c : Int)
    (pid : String) :
    (addToMap acc c pid).map Prod.fst =
      if c ∈ acc.map Prod.fst then acc.map Prod.fst
      else acc.map Prod.fst ++ [c] := by
  induction acc with
  | nil => simp [addToMap]
  | cons e rest ih =>
    obtain ⟨k, ids⟩ := e
    by_cases hkc : k = c
    · subst hkc
      simp [addToMap]
    · simp only [addToMap, if_neg hkc, List.map_cons]
      rw [ih]
      have hne : c ≠ k := fun hh => hkc hh.symm
      by_cases hmem : c ∈ rest.map Prod.fst
      · rw [if_pos hmem, if_pos (List.mem_cons_of_mem _ hmem)]
      · rw [if_neg hmem, if_neg ?_, List.cons_append]
        intro hc
        rcases List.mem_cons.mp hc with hc' | hc'
        · exact hne hc'
        · exact hmem hc'

theorem addToMap_keys_mem (acc : List (Int × List String)) (c : Int)
    (pid : String) (x : Int) :
    x ∈ (addToMap acc c pid).map Prod.fst ↔
      x ∈ acc.map Prod.fst ∨ x = c := by
  rw [addToMap_keys]
  by_cases hmem : c ∈ acc.map Prod.fst
  · rw [if_pos hmem]
    constructor
    · exact Or.inl
    · rintro (h | rfl)
      · exact h
      · exact hmem
  · rw [if_neg hmem]
    simp

theorem addToMap_keys_nodup (acc : List (Int × List String)) (c : Int)
    (pid : String) (h : (acc.map Prod.fst).Nodup) :
    ((addToMap acc c pid).map Prod.fst).Nodup := by
  rw [addToMap_keys]
  by_cases hmem : c ∈ acc.map Prod.fst
  · rw [if_pos hmem]; exact h
  · rw [if_neg hmem]
    refine List.Nodup.append h (List.nodup_singleton c) ?_
    intro a ha hc
    exact hmem ((List.mem_singleton.mp hc) ▸ ha)

theorem foldl_addToMap_keys_mem (ps : List (Int × String)) :
    ∀ acc (x : Int),
      x ∈ ((ps.foldl (fun a p => addToMap a p.1 p.2) acc).map Prod.fst) ↔
        x ∈ acc.map Prod.fst ∨ x ∈ ps.map Prod.fst := by
  induction ps with
  | nil => intro acc x; simp
  | cons p rest ih =>
    intro acc x
    rw [List.foldl_cons, ih, addToMap_keys_mem]
    simp only [List.map_cons, List.mem_cons]
    tauto

theorem foldl_addToMap_keys_nodup (ps : List (Int × String)) :
    ∀ acc, (acc.map Prod.fst).Nodup →
      ((ps.foldl (fun a p => addToMap a p.1 p.2) acc).map Prod.fst).Nodup := by
  induction ps with
  | nil => intro acc h; exact h
  | cons p rest ih =>
    intro acc h
    rw [List.foldl_cons]
    exact ih _ (addToMap_keys_nodup _ _ _ h)

theorem buildCongressMap_lookup (rows : List MemberDDL) (c : Int) :
    lookupIds c (buildCongressMap rows) = pairsFor c (memberPairs rows) := by
  rw [buildCongressMap, foldl_addToMap_lookup]
  simp [lookupIds]

theorem buildCongressMap_keys_mem (rows : List MemberDDL) (x : Int) :
    x ∈ (buildCongressMap rows).map Prod.fst ↔
      x ∈ (memberPairs rows).map Prod.fst := by
  rw [buildCongressMap, foldl_addToMap_keys_mem]
  simp

theorem buildCongressMap_keys_nodup (rows : List MemberDDL) :
    ((buildCongressMap rows).map Prod.fst).Nodup :=
  foldl_addToMap_keys_nodup _ _ (by simp)

/-- C10: Deterministic ordering of the `/info/people` mapping.  Every
member's `author_id` appears under every congress of its normalized
membership; the congress keys are strictly ascending; every id array is
sorted ascending; and permuting the upstream directory rows leaves the
output unchanged. -/
theorem info_people_deterministic :
    (∀ (rows : List MemberDDL), ∀ m ∈ rows, ∀ g ∈ m.membership,
      ∃ ids, (mapCongressId g, ids) ∈ infoPeopleData rows ∧
        m.author_id ∈ ids) ∧
    (∀ rows : List MemberDDL,
      ((infoPeopleData rows).map Prod.fst).Sorted (· < ·)) ∧
    (∀ rows : List MemberDDL, ∀ e ∈ infoPeopleData rows,
      e.2.Sorted (· ≤ ·)) ∧
    (∀ rows rows' : List MemberDDL, rows.Perm rows' →
      infoPeopleData rows = infoPeopleData rows') := by
  have hmapfst : ∀ rows : List MemberDDL,
      (infoPeopleData rows).map Prod.fst =
        List.insertionSort (· ≤ ·)
          ((buildCongressMap rows).map Prod.fst) := by
    intro rows
    rw [infoPeopleData, List.map_map]
    exact List.map_id _
  refine ⟨?_, ?_, ?_, ?_⟩
  · intro rows m hm g hg
    have hpair : (mapCongressId g, m.author_id) ∈ memberPairs rows :=
      List.mem_flatMap.mpr ⟨m, hm,
        List.mem_map.mpr ⟨mapCongressId g,
          List.mem_map.mpr ⟨g, hg, rfl⟩, rfl⟩⟩
    have hkey : mapCongressId g ∈ (buildCongressMap rows).map Prod.fst :=
      (buildCongressMap_keys_mem rows _).mpr
        (List.mem_map.mpr ⟨(mapCongressId g, m.author_id), hpair, rfl⟩)
    refine ⟨List.insertionSort (· ≤ ·)
      (lookupIds (mapCongressId g) (buildCongressMap rows)), ?_, ?_⟩
    · exact List.mem_map.mpr ⟨mapCongressId g,
        (List.mem_insertionSort _).mpr hkey, rfl⟩
    · refine (List.mem_insertionSort _).mpr ?_
      rw [buildCongressMap_lookup]
      exact List.mem_filterMap.mpr ⟨(mapCongressId g, m.author_id),
        hpair, by simp⟩
  · intro rows
    rw [hmapfst]
    refine List.Sorted.lt_of_le (List.sorted_insertionSort _ _) ?_
    exact ((List.perm_insertionSort _ _).nodup_iff).mpr
      (buildCongressMap_keys_nodup rows)
  · intro rows e he
    obtain ⟨c, -, rfl⟩ := List.mem_map.mp he
    exact List.sorted_insertionSort _ _
  · intro rows rows' hperm
    have hpairs : (memberPairs rows).Perm (memberPairs rows') :=
      List.Perm.flatMap_right _ hperm
    have hkeysperm : ((buildCongressMap rows).map Prod.fst).Perm
        ((buildCongressMap rows').map Prod.fst) := by
      refine (List.perm_ext_iff_of_nodup (buildCongressMap_keys_nodup _)
        (buildCongressMap_keys_nodup _)).mpr ?_
      intro a
      rw [buildCongressMap_keys_mem, buildCongressMap_keys_mem]
      exact (hpairs.map Prod.fst).mem_iff
    have hkeys : List.insertionSort (· ≤ ·)
        ((buildCongressMap rows).map Prod.fst) =
        List.insertionSort (· ≤ ·)
          ((buildCongressMap rows').map Prod.fst) := by
      refine List.eq_of_perm_of_sorted ?_ (List.sorted_insertionSort _ _)
        (List.sorted_insertionSort _ _)
      exact ((List.perm_insertionSort _ _).trans hkeysperm).trans
        (List.perm_insertionSort _ _).symm
    rw [infoPeopleData, infoPeopleData, hkeys]
    refine List.map_congr_left ?_
    intro c _
    have hids : List.insertionSort (· ≤ ·)
        (lookupIds c (buildCongressMap rows)) =
        List.insertionSort (· ≤ ·)
          (lookupIds c (buildCongressMap rows')) := by
      refine List.eq_of_perm_of_sorted ?_ (List.sorted_insertionSort _ _)
        (List.sorted_insertionSort _ _)
      refine ((List.perm_insertionSort _ _).trans ?_).trans
        (List.perm_insertionSort _ _).symm
      rw [buildCongressMap_lookup, buildCongressMap_lookup]
      exact hpairs.filterMap _
    rw [hids]

/-- Witness for C10: a two-row directory; `"B"`'s membership `[103, 19]`
normalizes to congress 20, under which `"B"` appears, and reversing the
directory rows leaves the output unchanged. -/
theorem info_people_deterministic_witness :
    (∃ ids, ((20 : Int), ids) ∈
        infoPeopleData [⟨"B", "MB", [103, 19]⟩, ⟨"A", "MA", [19]⟩] ∧
      "B" ∈ ids) ∧
    infoPeopleData [⟨"B", "MB", [103, 19]⟩, ⟨"A", "MA", [19]⟩] =
      infoPeopleData
        ([⟨"B", "MB", [103, 19]⟩, ⟨"A", "MA", [19]⟩] :
          List MemberDDL).reverse := by
  obtain ⟨ids, hmem, hb⟩ := info_people_deterministic.1
    [⟨"B", "MB", [103, 19]⟩, ⟨"A", "MA", [19]⟩]
    ⟨"B", "MB", [103, 19]⟩ (by decide) 103 (by decide)
  refine ⟨⟨ids, ?_, hb⟩, info_people_deterministic.2.2.2 _ _
    (List.reverse_perm _).symm⟩
  have h20 : mapCongressId 103 = 20 := by decide
  rwa [h20] at hmem

end BetterHrep
